import Mathlib

/-!
# Verification of the Tesseract combinatorial encoding engine

This file is a shallow embedding, in Lean 4, of the core of the
`RubikSockDrive` repository (package `Tesseract`):

* `Tesseract/_util.py` — `fit_to_epoch`, `search_maxsatisfying`, class `MixedBase`;
* `Tesseract/macaulay.py` — the combinatorial-number-system bijections
  (`integer_to_combination`, `combination_to_integer`, the multiset shift
  bijection, and the variable-cardinality multiset bijection);
* `Tesseract/Multiset.py` — the sorted-backing-list multiset ADT, its
  `joint_groupby`-based set algebra, and the universal-key total order.

Python big integers are modelled by `ℕ`/`ℤ` (values that are provably
non-negative in context use `ℕ`, with truncated subtraction noted where it
coincides with the Python arithmetic).  Functions that can raise are modelled
with `Except String`; the error strings keep the static part of the Python
message (or name the exception class for exceptions raised by the runtime,
such as `NameError`/`AttributeError`/`TypeError`).  Loops over data of
unbounded, input-independent extent (a Python `while`, or iteration over an
infinite generator) take an explicit fuel parameter; running out of fuel is a
modelling artifact reported as the distinguished error `"model: fuel
exhausted"`, never conflated with an error the Python code itself raises.
-/

namespace Tesseract

/-! ## `_util.fit_to_epoch`

```python
def fit_to_epoch(i, epochs):
    epoch_offset = 0
    if isinstance(epochs, _Callable):
        epochs = map(epochs, _count())
    for epoch_index, current_epoch_offset in enumerate(epochs):
        if (i - epoch_offset) > current_epoch_offset:
            epoch_offset += current_epoch_offset
            continue
        break
    else:
        raise ValueError("exhausted epochs without fitting i")
    return epoch_index, epoch_offset
```

Over Python's exact integers with `i, epoch_offset, current_epoch_offset ≥ 0`
the loop guard `(i - epoch_offset) > current_epoch_offset` is equivalent to
`epoch_offset + current_epoch_offset < i`, which is how it is written below
(all quantities stay in `ℕ`).  The `for … else` raises exactly when the
iterable is exhausted without a `break`.
-/

/-- Loop body of `fit_to_epoch` over an already-materialised finite list of
epoch sizes, carrying the enumeration index and the accumulated offset. -/
def fit_to_epoch_loop (i : ℕ) : List ℕ → ℕ → ℕ → Except String (ℕ × ℕ)
  | [], _, _ => .error "exhausted epochs without fitting i"
  | current :: rest, epoch_index, epoch_offset =>
    if epoch_offset + current < i then
      fit_to_epoch_loop i rest (epoch_index + 1) (epoch_offset + current)
    else
      .ok (epoch_index, epoch_offset)

/-- `fit_to_epoch(i, epochs)` for a finite sequence of epoch sizes. -/
def fit_to_epoch (i : ℕ) (epochs : List ℕ) : Except String (ℕ × ℕ) :=
  fit_to_epoch_loop i epochs 0 0

/-- Loop body of `fit_to_epoch` for the callable case
(`epochs = map(epochs, count())`, an infinite sequence), with fuel. -/
def fit_to_epoch_fun_loop (i : ℕ) (f : ℕ → ℕ) : ℕ → ℕ → ℕ → Except String (ℕ × ℕ)
  | 0, _, _ => .error "model: fuel exhausted"
  | fuel + 1, epoch_index, epoch_offset =>
    if epoch_offset + f epoch_index < i then
      fit_to_epoch_fun_loop i f fuel (epoch_index + 1) (epoch_offset + f epoch_index)
    else
      .ok (epoch_index, epoch_offset)

/-- `fit_to_epoch(i, epochs)` where `epochs` is a callable producing the
(conceptually infinite) sequence of epoch sizes.  The infinite iterator never
triggers the `for … else` branch, so the only outcomes are a successful fit or
fuel exhaustion (the latter a modelling artifact). -/
def fit_to_epoch_fun (fuel i : ℕ) (f : ℕ → ℕ) : Except String (ℕ × ℕ) :=
  fit_to_epoch_fun_loop i f fuel 0 0

/-! ## `_util.search_maxsatisfying`

```python
def search_maxsatisfying(predicate, *, initial=0, _increasefunc=lambda n, base=_sys_maxsize+1: n*base):
    if initial < 0:
        offset = -initial
        return _search_maxsatisfying(lambda guess: predicate(guess - offset), initial=0, _increasefunc=_increasefunc) - offset
    lower_bound = initial
    upper_bound = lower_bound + 1
    if not predicate(lower_bound):
        raise ValueError("initial guess does not satisfy predicate")
    while predicate(upper_bound):
        lower_bound, upper_bound = upper_bound, _increasefunc(upper_bound)
    guess = lower_bound
    while (upper_bound - lower_bound) > 1:
        guess = lower_bound + (upper_bound - lower_bound) // 2
        if not predicate(guess):
            upper_bound = guess
            guess = lower_bound
        else:
            lower_bound = guess
    assert predicate(guess) and not predicate(guess+1)
    return guess
```

The name `_search_maxsatisfying` used for the recursive call on the
`initial < 0` path is not defined anywhere in `_util.py` (the function itself
is named `search_maxsatisfying`, and no module assigns `_search_maxsatisfying`
into `_util`'s globals), so entering that branch raises `NameError` at call
time.  On the `initial ≥ 0` path every probed integer is non-negative, so the
two loop phases are modelled over `ℕ`.
-/

/-- `_increasefunc` default: `n * (sys.maxsize + 1)` on a 64-bit CPython,
i.e. `n * 2^63`. -/
def increase_func (n : ℕ) : ℕ := n * (2 ^ 63)

/-- Phase 1 of `search_maxsatisfying`: exponential growth of `upper_bound`
until the predicate fails (fueled; the Python loop's termination relies on the
predicate being false for all sufficiently large inputs). -/
def exp_phase (p : ℕ → Bool) : ℕ → ℕ → ℕ → Option (ℕ × ℕ)
  | 0, _, _ => none
  | fuel + 1, lower, upper =>
    if p upper then exp_phase p fuel upper (increase_func upper)
    else some (lower, upper)

/-- Phase 2 of `search_maxsatisfying`: binary search on the bracket,
carrying `guess` exactly as the Python loop does (reset to `lower_bound`
whenever the midpoint fails the predicate). -/
def binary_phase (p : ℕ → Bool) (lower upper guess : ℕ) : ℕ :=
  if h : 1 < upper - lower then
    if p (lower + (upper - lower) / 2) then
      binary_phase p (lower + (upper - lower) / 2) upper (lower + (upper - lower) / 2)
    else
      binary_phase p lower (lower + (upper - lower) / 2) lower
  else guess
termination_by upper - lower
decreasing_by
  · omega
  · omega

/-- `search_maxsatisfying(predicate, initial=initial)`.  A negative `initial`
reaches the undefined name `_search_maxsatisfying` and raises `NameError`. -/
def search_maxsatisfying (fuel : ℕ) (p : ℤ → Bool) (initial : ℤ) : Except String ℤ :=
  if initial < 0 then
    .error "NameError: name _search_maxsatisfying is not defined"
  else if ! p initial then
    .error "initial guess does not satisfy predicate"
  else
    match exp_phase (fun n => p (n : ℤ)) fuel initial.toNat (initial.toNat + 1) with
    | none => .error "model: fuel exhausted"
    | some (lower, upper) =>
      .ok ((binary_phase (fun n => p (n : ℤ)) lower upper lower : ℕ) : ℤ)

/-! ## `macaulay.py` — combinatorial number system -/

/-- `multicomb(n, k) = comb(n + k - 1, k)` (number of size-`k` multisets over
an `n`-symbol alphabet).  The Python `n + k - 1` cannot go negative for the
uses in this repository (`n ≥ 1`), and `ℕ` truncation at `n = k = 0` yields
`comb(0,0) = 1` exactly as Python would raise only for negative arguments. -/
def multicomb (n k : ℕ) : ℕ := Nat.choose (n + k - 1) k

/-- The value `search_maxsatisfying(lambda n: not comb(n, j) > remainder)`
computes: the greatest `m` with `comb(m, j) ≤ r`.  For `j ≥ 1` every `m`
satisfying `comb(m, j) ≤ r` has `m ≤ r + j` (proved in
`le_of_choose_le` below), so `Nat.findGreatest` with bound `r + j` is that
greatest value. -/
def maxChoose (r j : ℕ) : ℕ := Nat.findGreatest (fun m => Nat.choose m j ≤ r) (r + j)

/-- The digit-extraction loop of `integer_to_combination`: for `j` from `k`
down to `1`, extract `elem = maxChoose remainder j` and subtract
`comb(elem, j)`.  Returns the list of extracted elements (in extraction
order, i.e. most-significant first) together with the final remainder that
the Python `assert remainder == 0` inspects. -/
def itcLoop : ℕ → ℕ → List ℕ × ℕ
  | r, 0 => ([], r)
  | r, j + 1 =>
    let c := maxChoose r (j + 1)
    let p := itcLoop (r - Nat.choose c (j + 1)) j
    (c :: p.1, p.2)

/-- `integer_to_combination(i, k)`.  The Python `i < 0` guard is vacuous over
`ℕ`; the `k < 1 and i > 0` guard raises `ValueError`.  The returned Python
`set` is modelled as a `Finset ℕ`. -/
def integer_to_combination (i k : ℕ) : Except String (Finset ℕ) :=
  if k < 1 ∧ 0 < i then
    .error "can't represent i as a k-combination (k too small)"
  else
    .ok (itcLoop i k).1.toFinset

/-- `sum(comb(elem, j) for j, elem in enumerate(sorted(s), start=1))`,
processing an ascending list with 1-based positions. -/
def ctiAux : List ℕ → ℕ → ℕ
  | [], _ => 0
  | e :: t, j => Nat.choose e j + ctiAux t (j + 1)

/-- `combination_to_integer(s)`. -/
def combination_to_integer (s : Finset ℕ) : ℕ :=
  ctiAux (s.sort (· ≤ ·)) 1

/-- `combination_to_multiset(s)`: `Multiset(elem - offset for offset, elem in
enumerate(sorted(s)))`.  On valid inputs (distinct naturals) `elem ≥ offset`,
so `ℕ` truncated subtraction agrees with Python. -/
def combination_to_multiset (s : Finset ℕ) : Multiset ℕ :=
  ((s.sort (· ≤ ·)).enum.map (fun p => p.2 - p.1) : List ℕ)

/-- `multiset_to_combination(ms)`: `set(elem + offset for offset, elem in
enumerate(sorted(ms)))`. -/
def multiset_to_combination (ms : Multiset ℕ) : Finset ℕ :=
  ((ms.sort (· ≤ ·)).enum.map (fun p => p.2 + p.1)).toFinset

/-- `multiset_to_integer(ms)`. -/
def multiset_to_integer (ms : Multiset ℕ) : ℕ :=
  combination_to_integer (multiset_to_combination ms)

/-- `integer_to_multiset(i, k)`. -/
def integer_to_multiset (i k : ℕ) : Except String (Multiset ℕ) :=
  (integer_to_combination i k).map combination_to_multiset

/-- `integer_to_varmultiset(i, n)`: epoch-fit `i` against the sizes
`multicomb(n, k)` for `k = 0, 1, 2, …` (an infinite generator, hence the
fuel), then decode `i - offset` as a size-`k` multiset. -/
def integer_to_varmultiset (fuel i n : ℕ) : Except String (Multiset ℕ) :=
  match fit_to_epoch_fun fuel i (fun k => multicomb n k) with
  | .error e => .error e
  | .ok (k, offset) => integer_to_multiset (i - offset) k

/-- `varmultiset_to_integer(ms, n) = multiset_to_integer(ms) +
sum(multicomb(n, j) for j in range(len(ms)))`. -/
def varmultiset_to_integer (ms : Multiset ℕ) (n : ℕ) : ℕ :=
  multiset_to_integer ms + ((List.range (Multiset.card ms)).map (fun k => multicomb n k)).sum

/-! ## `_util.MixedBase` -/

/-- The fold inside `MixedBase.to_int`:
`for b, digit in zip(reversed(self.base), value, strict=True): …`.
The first list argument is the **reversed** radix list; `strict=True` raises
if the lengths differ.  Digits are Python ints, modelled as `ℤ` so the
`0 <= digit < b` range check is represented exactly. -/
def toIntLoop : List ℕ → List ℤ → ℤ → Except String ℤ
  | [], [], i => .ok i
  | b :: bs, d :: ds, i =>
    if 0 ≤ d ∧ d < (b : ℤ) then toIntLoop bs ds (i * b + d)
    else .error "digit out of range"
  | _, _, _ => .error "zip() argument lengths differ (strict=True)"

/-- `MixedBase(base).to_int(value)`. -/
def MixedBase_to_int (base : List ℕ) (value : List ℤ) : Except String ℤ :=
  toIntLoop base.reverse value 0

/-- `MixedBase(base).from_int(i)`.

```python
def from_int(self, i):
    value = ...
    for b in self.base:
        i, digit = divmod(i, b)
        value.append(digit)
    if i:
        raise ValueError("integer out of range")
    value.reverse()
    return tuple(value)
```

`value` is initialised to the literal `...` — the Python `Ellipsis` object,
not a list — so the very first `value.append(digit)` (or, for an empty radix
vector, `value.reverse()`) raises `AttributeError`.  No argument reaches any
other outcome, hence the embedding returns that error unconditionally. -/
def MixedBase_from_int (_base : List ℕ) (_i : ℤ) : Except String (List ℤ) :=
  .error "AttributeError: ellipsis object has no attribute append"

/-! ## Claims C1, C2, C6, C7 — concrete divergences -/

/-- **C2** (code bug).  The claim: `fit_to_epoch(i, epoch_sizes)` returns
`(epoch_index, offset)` with `offset ≤ i < offset + epoch_sizes(epoch_index)`.
The loop guard uses `>` where fitting `i` strictly below the epoch's upper
edge needs `>=`: with epoch sizes `[1, 2, 3]` and `i = 1` the code returns
`(0, 0)`, but epoch `0` only covers `offset ≤ i < offset + 1`, i.e. `i = 0`,
so `1 < 0 + 1` fails; the spec-conformant answer is `(1, 1)`. -/
theorem claim_C2_fit_to_epoch_off_by_one :
    fit_to_epoch 1 [1, 2, 3] = .ok (0, 0) ∧ ¬ (1 < 0 + 1) :=
  ⟨rfl, by decide⟩

/-- **C1** (code bug).  The claim: `integer_to_varmultiset` and
`varmultiset_to_integer` form a bijection for all `i ≥ 0`, `n ≥ 1`.  In fact
`varmultiset_to_integer({0}, 2) = 1`, but decoding `1` back fails: the
off-by-one in `fit_to_epoch` files `i = 1` into epoch `k = 0` (sizes
`multicomb(2, k) = 1, 2, 3, …`), so `integer_to_combination(1, 0)` raises
`ValueError` and `integer_to_varmultiset(1, 2)` propagates it. -/
theorem claim_C1_varmultiset_roundtrip_fails :
    varmultiset_to_integer {0} 2 = 1 ∧
      integer_to_varmultiset 5 1 2 =
        .error "can't represent i as a k-combination (k too small)" := by
  refine ⟨?_, rfl⟩
  simp [varmultiset_to_integer, multiset_to_integer, multiset_to_combination,
    combination_to_integer, ctiAux, multicomb, Multiset.sort_singleton,
    Finset.sort_singleton]
  decide

/-- **C6** (code bug).  The claim: `from_int(i)` returns the digit tuple for
every in-range `i`, and `to_int` accepts every digit tuple with
`0 ≤ dⱼ < bⱼ`.  In fact `from_int` initialises its accumulator to the
Ellipsis literal `...` instead of a list, so every call — here
`MixedBase((2, 3)).from_int(0)`, which the claim says returns `(0, 0)` —
raises `AttributeError`.  Moreover `to_int` zips digits against the
**reversed** radix list: the digits `(1, 2)` satisfy `0 ≤ 1 < b₀ = 2`,
`0 ≤ 2 < b₁ = 3`, yet `to_int` checks `2 < b₀ = 2` and raises a range error
instead of returning a value. -/
theorem claim_C6_from_int_raises :
    MixedBase_from_int [2, 3] 0 =
        .error "AttributeError: ellipsis object has no attribute append" ∧
      MixedBase_to_int [2, 3] [1, 2] = .error "digit out of range" :=
  ⟨rfl, rfl⟩

/-- **C7** (code bug).  The claim: `search_maxsatisfying` handles negative
`initial` via an offset transform.  The transform at `_util.py:83` calls
`_search_maxsatisfying`, a name never defined in the module (the function is
`search_maxsatisfying`; the underscore-prefixed alias exists only inside
`macaulay.py`'s import), so any negative `initial` raises `NameError`. -/
theorem claim_C7_negative_initial_raises :
    search_maxsatisfying 10 (fun n => decide (n ≤ 5)) (-3) =
      .error "NameError: name _search_maxsatisfying is not defined" :=
  rfl

/-! ## Combinatorial number system: correctness (claims C3, C9)

The helper lemmas below establish that the greedy digit extraction of
`integer_to_combination` always zeroes its remainder, produces strictly
decreasing digits, and is mutually inverse with `combination_to_integer`. -/

theorem choose_lower (i : ℕ) : ∀ m, i + 1 ≤ m → m - (i + 1) + 1 ≤ Nat.choose m (i + 1) := by
  refine Nat.le_induction ?_ ?_
  · simp
  · intro m hm ih
    have hpas : Nat.choose (m + 1) (i + 1) = Nat.choose m i + Nat.choose m (i + 1) :=
      Nat.choose_succ_succ' m i
    have hpos : 0 < Nat.choose m i := Nat.choose_pos (by omega)
    omega

theorem le_of_choose_le {r j m : ℕ} (hj : 1 ≤ j) (h : Nat.choose m j ≤ r) :
    m ≤ r + j := by
  obtain ⟨i, rfl⟩ : ∃ i, j = i + 1 := ⟨j - 1, by omega⟩
  rcases Nat.lt_or_ge m (i + 1) with hm | hm
  · omega
  · have := choose_lower i m hm
    omega

theorem maxChoose_le {r j : ℕ} (hj : 1 ≤ j) :
    Nat.choose (maxChoose r j) j ≤ r := by
  obtain ⟨i, rfl⟩ : ∃ i, j = i + 1 := ⟨j - 1, by omega⟩
  have h0 : Nat.choose 0 (i + 1) ≤ r := by simp
  exact @Nat.findGreatest_spec 0 (fun m => Nat.choose m (i + 1) ≤ r) _
    (r + (i + 1)) (Nat.zero_le _) h0

theorem lt_choose_maxChoose_succ {r j : ℕ} (hj : 1 ≤ j) :
    r < Nat.choose (maxChoose r j + 1) j := by
  by_contra h
  push_neg at h
  exact Nat.findGreatest_is_greatest (Nat.lt_succ_self _) (le_of_choose_le hj h) h

theorem maxChoose_eq {r j c : ℕ} (hj : 1 ≤ j)
    (h1 : Nat.choose c j ≤ r) (h2 : r < Nat.choose (c + 1) j) :
    maxChoose r j = c := by
  rw [maxChoose, Nat.findGreatest_eq_iff]
  refine ⟨le_of_choose_le hj h1, fun _ => h1, ?_⟩
  intro n hn _ hP
  exact absurd (le_trans (Nat.choose_le_choose j hn) hP) (not_le_of_lt h2)

theorem maxChoose_one (r : ℕ) : maxChoose r 1 = r :=
  maxChoose_eq le_rfl (by simp) (by simp)

theorem itcLoop_succ (r j : ℕ) :
    itcLoop r (j + 1) =
      (maxChoose r (j + 1) :: (itcLoop (r - Nat.choose (maxChoose r (j + 1)) (j + 1)) j).1,
       (itcLoop (r - Nat.choose (maxChoose r (j + 1)) (j + 1)) j).2) := rfl

theorem itcLoop_length : ∀ (k r : ℕ), (itcLoop r k).1.length = k
  | 0, _ => rfl
  | k + 1, r => by
    rw [itcLoop_succ]
    simp [itcLoop_length k]

theorem itcLoop_rem1 : ∀ (j r : ℕ), (itcLoop r (j + 1)).2 = 0
  | 0, r => by
    rw [itcLoop_succ]
    simp [itcLoop, maxChoose_one, Nat.choose_one_right]
  | j + 1, r => by
    rw [itcLoop_succ]
    exact itcLoop_rem1 j _

theorem ctiAux_append : ∀ (t : List ℕ) (c j : ℕ),
    ctiAux (t ++ [c]) j = ctiAux t j + Nat.choose c (j + t.length)
  | [], c, j => by simp [ctiAux]
  | e :: t, c, j => by
    show ctiAux (e :: (t ++ [c])) j = _
    rw [ctiAux, ctiAux, ctiAux_append t c (j + 1)]
    have h : j + 1 + t.length = j + (e :: t).length := by
      simp only [List.length_cons]
      omega
    rw [h]
    omega

theorem itcLoop_sum1 : ∀ (j r : ℕ), ctiAux (itcLoop r (j + 1)).1.reverse 1 = r
  | 0, r => by
    rw [itcLoop_succ]
    simp [itcLoop, ctiAux, maxChoose_one, Nat.choose_one_right]
  | j + 1, r => by
    have hle : Nat.choose (maxChoose r (j + 1 + 1)) (j + 1 + 1) ≤ r := maxChoose_le (by omega)
    have ih := itcLoop_sum1 j (r - Nat.choose (maxChoose r (j + 1 + 1)) (j + 1 + 1))
    have hlen := itcLoop_length (j + 1) (r - Nat.choose (maxChoose r (j + 1 + 1)) (j + 1 + 1))
    rw [itcLoop_succ]
    simp only [List.reverse_cons]
    rw [ctiAux_append, ih, List.length_reverse, hlen]
    have h12 : 1 + (j + 1) = j + 1 + 1 := by omega
    rw [h12]
    omega

theorem itcLoop_head (r j : ℕ) :
    (itcLoop r (j + 1)).1.head? = some (maxChoose r (j + 1)) := by
  rw [itcLoop_succ]
  rfl

theorem itcLoop_chain1 : ∀ (j r : ℕ), List.Chain' (· > ·) (itcLoop r (j + 1)).1
  | 0, r => by
    rw [itcLoop_succ]
    simp [itcLoop]
  | j + 1, r => by
    have hchain := itcLoop_chain1 j (r - Nat.choose (maxChoose r (j + 1 + 1)) (j + 1 + 1))
    have hhead := itcLoop_head (r - Nat.choose (maxChoose r (j + 1 + 1)) (j + 1 + 1)) j
    have hlt : maxChoose (r - Nat.choose (maxChoose r (j + 1 + 1)) (j + 1 + 1)) (j + 1) <
        maxChoose r (j + 1 + 1) := by
      have hub : r < Nat.choose (maxChoose r (j + 1 + 1) + 1) (j + 1 + 1) :=
        lt_choose_maxChoose_succ (by omega)
      have hpas : Nat.choose (maxChoose r (j + 1 + 1) + 1) (j + 1 + 1) =
          Nat.choose (maxChoose r (j + 1 + 1)) (j + 1) +
            Nat.choose (maxChoose r (j + 1 + 1)) (j + 1 + 1) :=
        Nat.choose_succ_succ' _ (j + 1)
      have hle : Nat.choose (maxChoose r (j + 1 + 1)) (j + 1 + 1) ≤ r := maxChoose_le (by omega)
      by_contra hge
      push_neg at hge
      have h1 : Nat.choose (maxChoose r (j + 1 + 1)) (j + 1) ≤
          Nat.choose (maxChoose (r - Nat.choose (maxChoose r (j + 1 + 1)) (j + 1 + 1)) (j + 1))
            (j + 1) :=
        Nat.choose_le_choose _ hge
      have h2 : Nat.choose (maxChoose (r - Nat.choose (maxChoose r (j + 1 + 1)) (j + 1 + 1)) (j + 1))
            (j + 1) ≤ r - Nat.choose (maxChoose r (j + 1 + 1)) (j + 1 + 1) := maxChoose_le (by omega)
      omega
    rw [itcLoop_succ]
    rw [List.chain'_cons']
    refine ⟨?_, hchain⟩
    intro y hy
    rw [hhead] at hy
    simp only [Option.mem_def, Option.some.injEq] at hy
    omega

theorem itcLoop_pairwise (k r : ℕ) : List.Pairwise (· > ·) (itcLoop r k).1 := by
  rcases k with _ | j
  · simp [itcLoop]
  · exact List.chain'_iff_pairwise.mp (itcLoop_chain1 j r)

theorem sort_itcLoop_toFinset (k r : ℕ) :
    Finset.sort (· ≤ ·) (itcLoop r k).1.toFinset = (itcLoop r k).1.reverse := by
  have hrev : List.Sorted (· < ·) (itcLoop r k).1.reverse :=
    List.pairwise_reverse.mpr (itcLoop_pairwise k r)
  have hnd : (itcLoop r k).1.reverse.Nodup := hrev.imp Nat.ne_of_lt
  rw [← List.toFinset_reverse]
  exact (List.toFinset_sort (· ≤ ·) hnd).mpr (hrev.imp le_of_lt)

theorem cti_itc (i k : ℕ) (hk : 1 ≤ k) :
    combination_to_integer (itcLoop i k).1.toFinset = i := by
  obtain ⟨j, rfl⟩ : ∃ j, k = j + 1 := ⟨k - 1, by omega⟩
  rw [combination_to_integer, sort_itcLoop_toFinset]
  exact itcLoop_sum1 j i

theorem ctiAux_rev_lt : ∀ (d : List ℕ) (bnd : ℕ), List.Pairwise (· > ·) d →
    (∀ x ∈ d, x < bnd) → ctiAux d.reverse 1 < Nat.choose bnd d.length
  | [], bnd, _, _ => by simp [ctiAux]
  | c :: t, bnd, hp, hb => by
    have hmem : ∀ x ∈ t, x < c := fun x hx => (List.pairwise_cons.mp hp).1 x hx
    have ih := ctiAux_rev_lt t c (List.pairwise_cons.mp hp).2 hmem
    have hcb : c < bnd := hb c (List.mem_cons_self c t)
    have hpas : Nat.choose (c + 1) (t.length + 1) =
        Nat.choose c t.length + Nat.choose c (t.length + 1) :=
      Nat.choose_succ_succ' c t.length
    have hmono : Nat.choose (c + 1) (t.length + 1) ≤ Nat.choose bnd (t.length + 1) :=
      Nat.choose_le_choose _ (by omega)
    simp only [List.reverse_cons]
    rw [ctiAux_append, List.length_reverse]
    have h1t : 1 + t.length = t.length + 1 := by omega
    rw [h1t]
    simp only [List.length_cons]
    omega

theorem itc_of_desc : ∀ d : List ℕ, List.Pairwise (· > ·) d →
    itcLoop (ctiAux d.reverse 1) d.length = (d, 0)
  | [], _ => by simp [ctiAux, itcLoop]
  | c :: t, hp => by
    have hmem : ∀ x ∈ t, x < c := fun x hx => (List.pairwise_cons.mp hp).1 x hx
    have htail := (List.pairwise_cons.mp hp).2
    have hBnd := ctiAux_rev_lt t c htail hmem
    have hS : ctiAux (c :: t).reverse 1 =
        ctiAux t.reverse 1 + Nat.choose c (t.length + 1) := by
      simp only [List.reverse_cons]
      rw [ctiAux_append, List.length_reverse]
      have h1t : 1 + t.length = t.length + 1 := by omega
      rw [h1t]
    have hpas : Nat.choose (c + 1) (t.length + 1) =
        Nat.choose c t.length + Nat.choose c (t.length + 1) :=
      Nat.choose_succ_succ' c t.length
    have hmax : maxChoose (ctiAux (c :: t).reverse 1) (t.length + 1) = c :=
      maxChoose_eq (by omega) (by omega) (by omega)
    have ih := itc_of_desc t htail
    show itcLoop (ctiAux (c :: t).reverse 1) (t.length + 1) = (c :: t, 0)
    rw [itcLoop_succ, hmax]
    have hsub : ctiAux (c :: t).reverse 1 - Nat.choose c (t.length + 1) =
        ctiAux t.reverse 1 := by omega
    rw [hsub, ih]

/-- **C3** (confirmed).  The combinatorial-number-system round trip: for every
`i ≥ 0` and `k ≥ 1`,
`combination_to_integer(integer_to_combination(i, k)) == i`, and for every
set `s` of distinct non-negative integers (of any size `k = |s|`),
`integer_to_combination(combination_to_integer(s), k) == s`. -/
theorem claim_C3_cns_roundtrip :
    (∀ i k : ℕ, 1 ≤ k →
      (integer_to_combination i k).map combination_to_integer = .ok i) ∧
    (∀ s : Finset ℕ,
      integer_to_combination (combination_to_integer s) s.card = .ok s) := by
  constructor
  · intro i k hk
    rw [integer_to_combination, if_neg (by omega)]
    simp only [Except.map]
    rw [cti_itc i k hk]
  · intro s
    have hlt : List.Sorted (· < ·) (Finset.sort (· ≤ ·) s) := Finset.sort_sorted_lt s
    have hdesc : List.Pairwise (· > ·) (Finset.sort (· ≤ ·) s).reverse :=
      List.pairwise_reverse.mpr hlt
    have hlen : (Finset.sort (· ≤ ·) s).reverse.length = s.card := by
      rw [List.length_reverse, Finset.length_sort]
    have hval : ctiAux ((Finset.sort (· ≤ ·) s).reverse).reverse 1 =
        combination_to_integer s := by
      rw [List.reverse_reverse, combination_to_integer]
    have hloop := itc_of_desc ((Finset.sort (· ≤ ·) s).reverse) hdesc
    rw [hval, hlen] at hloop
    have hcond : ¬ (s.card < 1 ∧ 0 < combination_to_integer s) := by
      rintro ⟨h1, h2⟩
      have hs : s = ∅ := Finset.card_eq_zero.mp (by omega)
      rw [hs, combination_to_integer, Finset.sort_empty] at h2
      simp [ctiAux] at h2
    rw [integer_to_combination, if_neg hcond, hloop]
    simp only [Except.ok.injEq]
    rw [List.toFinset_reverse]
    exact Finset.sort_toFinset _ s

/-- Witness for C3 at `i = 5`, `k = 3` and `s = {0, 2}`. -/
theorem claim_C3_witness :
    ((1 : ℕ) ≤ 3 ∧
      (integer_to_combination 5 3).map combination_to_integer = .ok 5) ∧
    integer_to_combination (combination_to_integer {0, 2}) (Finset.card {0, 2}) =
      .ok {0, 2} :=
  ⟨⟨by decide, claim_C3_cns_roundtrip.1 5 3 (by decide)⟩,
    claim_C3_cns_roundtrip.2 {0, 2}⟩

/-- **C9** (confirmed).  Under the stated preconditions (`k >= 1` or `i = 0`)
the remainder left after `integer_to_combination(i, k)` extracts all `k`
digits is exactly `0`, so Python's `assert remainder == 0` at the end of the
function never fires. -/
theorem claim_C9_remainder_zero (i k : ℕ) (h : 1 ≤ k ∨ i = 0) :
    (itcLoop i k).2 = 0 := by
  rcases k with _ | j
  · have hi : i = 0 := by
      rcases h with h | h
      · omega
      · exact h
    subst hi
    rfl
  · exact itcLoop_rem1 j i

/-- Witness for C9 at `i = 5`, `k = 3`. -/
theorem claim_C9_remainder_zero_witness :
    ((1 : ℕ) ≤ 3 ∨ (5 : ℕ) = 0) ∧ (itcLoop 5 3).2 = 0 :=
  ⟨Or.inl (by decide), claim_C9_remainder_zero 5 3 (Or.inl (by decide))⟩

/-! ## `Multiset.py` — the sorted-list multiset ADT over numeric elements
(claims C4, C5)

A `Multiset` instance is represented by its backing `SortedList` contents: a
`List ℕ` sorted by `(· ≤ ·)` (for numeric elements the
`hashable_universal_key` order coincides with the numeric order, and Python's
raw comparison used by `joint_groupby`'s `min` is total).  Multiplicity is
`List.count`. -/

theorem length_dropWhile_le' {α : Type} (p : α → Bool) (l : List α) :
    (l.dropWhile p).length ≤ l.length := (List.dropWhile_sublist p).length_le

theorem length_dropWhile_head_lt {α : Type} [BEq α] [LawfulBEq α] (a : α) (l : List α) :
    ((a :: l).dropWhile (· == a)).length < (a :: l).length := by
  rw [List.dropWhile_cons]
  simp only [BEq.refl, if_true]
  exact Nat.lt_succ_of_le (length_dropWhile_le' _ _)

/-- `joint_group_count(self, other)` from `Multiset.py`, specialised to two
operands over numeric elements (where Python's raw `min` over the buffered
heads is total and agrees with the universal key, so the merge is the
classical sorted-runs walk).  `joint_groupby` repeatedly picks the least
buffered head `x = min` of the two iterators, then each grouper consumes the
run of elements `== x` from its own iterator; `joint_group_count` turns each
run into its length.  An exhausted iterator contributes count `0`. -/
def jointGroupCount : List ℕ → List ℕ → List (ℕ × ℕ × ℕ)
  | [], [] => []
  | a :: as, [] =>
      (a, ((a :: as).takeWhile (· == a)).length, 0) ::
        jointGroupCount ((a :: as).dropWhile (· == a)) []
  | [], b :: bs =>
      (b, 0, ((b :: bs).takeWhile (· == b)).length) ::
        jointGroupCount [] ((b :: bs).dropWhile (· == b))
  | a :: as, b :: bs =>
      (min a b, ((a :: as).takeWhile (· == min a b)).length,
        ((b :: bs).takeWhile (· == min a b)).length) ::
        jointGroupCount ((a :: as).dropWhile (· == min a b)) ((b :: bs).dropWhile (· == min a b))
termination_by A B => A.length + B.length
decreasing_by
  · have := length_dropWhile_head_lt a as
    simp only [List.length_cons] at this ⊢
    omega
  · have := length_dropWhile_head_lt b bs
    simp only [List.length_cons] at this ⊢
    omega
  · rcases Nat.le_total a b with h | h
    · rw [Nat.min_eq_left h]
      have h1 := length_dropWhile_head_lt a as
      have h2 := length_dropWhile_le' (· == a) (b :: bs)
      simp only [List.length_cons] at h1 h2 ⊢
      omega
    · rw [Nat.min_eq_right h]
      have h1 := length_dropWhile_le' (· == b) (a :: as)
      have h2 := length_dropWhile_head_lt b bs
      simp only [List.length_cons] at h1 h2 ⊢
      omega

theorem jgc_nil : jointGroupCount [] [] = [] := by simp [jointGroupCount]

theorem jgc_left (a : ℕ) (as : List ℕ) :
    jointGroupCount (a :: as) [] =
      (a, ((a :: as).takeWhile (· == a)).length, 0) ::
        jointGroupCount ((a :: as).dropWhile (· == a)) [] := by
  simp only [jointGroupCount]

theorem jgc_right (b : ℕ) (bs : List ℕ) :
    jointGroupCount [] (b :: bs) =
      (b, 0, ((b :: bs).takeWhile (· == b)).length) ::
        jointGroupCount [] ((b :: bs).dropWhile (· == b)) := by
  simp only [jointGroupCount]

theorem jgc_min (a b : ℕ) (as bs : List ℕ) :
    jointGroupCount (a :: as) (b :: bs) =
      (min a b, ((a :: as).takeWhile (· == min a b)).length,
        ((b :: bs).takeWhile (· == min a b)).length) ::
        jointGroupCount ((a :: as).dropWhile (· == min a b))
          ((b :: bs).dropWhile (· == min a b)) := by
  simp only [jointGroupCount]

theorem sorted_dropWhile_lt (x : ℕ) :
    ∀ l : List ℕ, List.Sorted (· ≤ ·) l → (∀ z ∈ l, x ≤ z) →
      ∀ z ∈ l.dropWhile (· == x), x < z := by
  intro l
  induction l with
  | nil => intro _ _ z hz; simp at hz
  | cons h t ih =>
    intro hs hall z hz
    rw [List.dropWhile_cons] at hz
    by_cases hh : h = x
    · subst hh
      simp at hz
      exact ih (List.Sorted.of_cons hs) (fun w hw => hall w (List.mem_cons_of_mem _ hw)) z hz
    · have hbeq : (h == x) = false := by simp [hh]
      rw [hbeq] at hz
      have hz' : z ∈ h :: t := by simpa using hz
      have hxh : x < h := by
        have := hall h (List.mem_cons_self h t)
        omega
      rcases List.mem_cons.mp hz' with rfl | hz2
      · exact hxh
      · have := List.rel_of_sorted_cons hs z hz2
        omega

theorem count_dropWhile_self (x : ℕ) (l : List ℕ) (hs : List.Sorted (· ≤ ·) l)
    (hall : ∀ z ∈ l, x ≤ z) : (l.dropWhile (· == x)).count x = 0 := by
  rw [List.count_eq_zero]
  intro hmem
  exact absurd rfl (Nat.ne_of_lt (sorted_dropWhile_lt x l hs hall x hmem))

theorem count_takeWhile_self (x : ℕ) (l : List ℕ) :
    (l.takeWhile (· == x)).count x = (l.takeWhile (· == x)).length := by
  rw [List.count_eq_length]
  intro b hb
  have := List.mem_takeWhile_imp hb
  simp at this
  omega

theorem count_takeWhile_ne {x y : ℕ} (h : y ≠ x) (l : List ℕ) :
    (l.takeWhile (· == x)).count y = 0 := by
  rw [List.count_eq_zero]
  intro hmem
  have := List.mem_takeWhile_imp hmem
  simp at this
  omega

theorem count_split (p : ℕ → Bool) (l : List ℕ) (y : ℕ) :
    l.count y = (l.takeWhile p).count y + (l.dropWhile p).count y := by
  conv_lhs => rw [← List.takeWhile_append_dropWhile p l]
  rw [List.count_append]

/-- The multiplicity that a `(element, multiplicity)` item list assigns to
`y` (summing over entries whose element is `y`). -/
def countval (y : ℕ) (l : List (ℕ × ℕ)) : ℕ :=
  (l.map (fun p => if p.1 = y then p.2 else 0)).sum

/-- The common shape of the four `__*_items` generator expressions of
`Multiset.py`: walk `joint_group_count(self, other)` and, for each element
with per-operand counts `(c1, c2)`, yield `(elem, f c1 c2)` when the guard
`keep c1 c2` holds.  Each operation below instantiates `f`/`keep` with its
literal guard and value expression. -/
def processed (f : ℕ → ℕ → ℕ) (keep : ℕ → ℕ → Prop) [∀ c1 c2, Decidable (keep c1 c2)]
    (A B : List ℕ) : List (ℕ × ℕ) :=
  (jointGroupCount A B).filterMap fun e =>
    if keep e.2.1 e.2.2 then some (e.1, f e.2.1 e.2.2) else none

theorem countval_append (y : ℕ) (l1 l2 : List (ℕ × ℕ)) :
    countval y (l1 ++ l2) = countval y l1 + countval y l2 := by
  simp [countval]

theorem processed_cons (f : ℕ → ℕ → ℕ) (keep : ℕ → ℕ → Prop)
    [∀ c1 c2, Decidable (keep c1 c2)] (x c1 c2 : ℕ) (rest : List (ℕ × ℕ × ℕ)) :
    (((x, c1, c2) :: rest).filterMap fun e =>
        if keep e.2.1 e.2.2 then some (e.1, f e.2.1 e.2.2) else none) =
      (if keep c1 c2 then [(x, f c1 c2)] else []) ++
        rest.filterMap fun e => if keep e.2.1 e.2.2 then some (e.1, f e.2.1 e.2.2) else none := by
  by_cases h : keep c1 c2 <;> simp [List.filterMap_cons, h]

theorem countval_entry (x y v : ℕ) (c : Prop) [Decidable c] :
    countval y (if c then [(x, v)] else []) =
      if y = x then (if c then v else 0) else 0 := by
  by_cases hc : c
  · by_cases hy : y = x
    · subst hy
      simp [countval, hc]
    · simp [countval, hc, hy, Ne.symm hy]
  · simp [countval, hc]

theorem count_take_eq (x y : ℕ) (l : List ℕ) :
    (l.takeWhile (· == x)).count y =
      if y = x then (l.takeWhile (· == x)).length else 0 := by
  by_cases h : y = x
  · subst h
    rw [if_pos rfl, count_takeWhile_self]
  · rw [if_neg h, count_takeWhile_ne h]

theorem count_decomp (x y : ℕ) (l : List ℕ) :
    l.count y = (if y = x then (l.takeWhile (· == x)).length else 0) +
      (l.dropWhile (· == x)).count y := by
  rw [count_split (· == x) l y, count_take_eq]

theorem step_glue (f : ℕ → ℕ → ℕ) (keep : ℕ → ℕ → Prop) [∀ c1 c2, Decidable (keep c1 c2)]
    (hk : ¬ keep 0 0) (x y tA tB dA dB cA cB : ℕ)
    (hdA : y = x → dA = 0) (hdB : y = x → dB = 0)
    (hcA : cA = (if y = x then tA else 0) + dA)
    (hcB : cB = (if y = x then tB else 0) + dB) :
    (if y = x then (if keep tA tB then f tA tB else 0) else 0) +
      (if keep dA dB then f dA dB else 0) =
      if keep cA cB then f cA cB else 0 := by
  by_cases hy : y = x
  · have h1 := hdA hy
    have h2 := hdB hy
    subst h1
    subst h2
    rw [if_pos hy] at hcA hcB
    simp only [Nat.add_zero] at hcA hcB
    subst hcA
    subst hcB
    simp [hy, hk]
  · rw [if_neg hy] at hcA hcB
    simp only [Nat.zero_add] at hcA hcB
    subst hcA
    subst hcB
    simp [hy]

theorem processed_sum (f : ℕ → ℕ → ℕ) (keep : ℕ → ℕ → Prop)
    [∀ c1 c2, Decidable (keep c1 c2)] (hk : ¬ keep 0 0) :
    ∀ (A B : List ℕ), List.Sorted (· ≤ ·) A → List.Sorted (· ≤ ·) B → ∀ y : ℕ,
      countval y (processed f keep A B) =
        if keep (A.count y) (B.count y) then f (A.count y) (B.count y) else 0 := by
  intro A B
  induction A, B using jointGroupCount.induct with
  | case1 =>
    intro _ _ y
    simp [processed, jgc_nil, countval, hk]
  | case2 a as ih =>
    intro hA hB y
    have hall : ∀ z ∈ a :: as, a ≤ z := by
      intro z hz
      rcases List.mem_cons.mp hz with rfl | hz2
      · exact le_refl _
      · exact List.rel_of_sorted_cons hA z hz2
    have hdropS : List.Sorted (· ≤ ·) ((a :: as).dropWhile (· == a)) :=
      List.Pairwise.sublist (List.dropWhile_sublist _) hA
    have ihy := ih hdropS (List.sorted_nil) y
    simp only [List.count_nil] at ihy
    rw [processed, jgc_left, processed_cons, countval_append, countval_entry]
    rw [show ((jointGroupCount ((a :: as).dropWhile (· == a)) []).filterMap fun e =>
          if keep e.2.1 e.2.2 then some (e.1, f e.2.1 e.2.2) else none) =
        processed f keep ((a :: as).dropWhile (· == a)) [] from rfl, ihy]
    simp only [List.count_nil]
    exact step_glue f keep hk a y _ 0 _ 0 _ 0
      (fun hy => by rw [hy]; exact count_dropWhile_self a (a :: as) hA hall)
      (fun _ => rfl)
      (count_decomp a y (a :: as)) (by simp)
  | case3 b bs ih =>
    intro hA hB y
    have hall : ∀ z ∈ b :: bs, b ≤ z := by
      intro z hz
      rcases List.mem_cons.mp hz with rfl | hz2
      · exact le_refl _
      · exact List.rel_of_sorted_cons hB z hz2
    have hdropS : List.Sorted (· ≤ ·) ((b :: bs).dropWhile (· == b)) :=
      List.Pairwise.sublist (List.dropWhile_sublist _) hB
    have ihy := ih (List.sorted_nil) hdropS y
    simp only [List.count_nil] at ihy
    rw [processed, jgc_right, processed_cons, countval_append, countval_entry]
    rw [show ((jointGroupCount [] ((b :: bs).dropWhile (· == b))).filterMap fun e =>
          if keep e.2.1 e.2.2 then some (e.1, f e.2.1 e.2.2) else none) =
        processed f keep [] ((b :: bs).dropWhile (· == b)) from rfl, ihy]
    simp only [List.count_nil]
    exact step_glue f keep hk b y 0 _ 0 _ 0 _
      (fun _ => rfl)
      (fun hy => by rw [hy]; exact count_dropWhile_self b (b :: bs) hB hall)
      (by simp) (count_decomp b y (b :: bs))
  | case4 a as b bs ih =>
    intro hA hB y
    have hallA : ∀ z ∈ a :: as, min a b ≤ z := by
      intro z hz
      rcases List.mem_cons.mp hz with rfl | hz2
      · exact Nat.min_le_left _ _
      · exact le_trans (Nat.min_le_left a b) (List.rel_of_sorted_cons hA z hz2)
    have hallB : ∀ z ∈ b :: bs, min a b ≤ z := by
      intro z hz
      rcases List.mem_cons.mp hz with rfl | hz2
      · exact Nat.min_le_right _ _
      · exact le_trans (Nat.min_le_right a b) (List.rel_of_sorted_cons hB z hz2)
    have hdropA : List.Sorted (· ≤ ·) ((a :: as).dropWhile (· == min a b)) :=
      List.Pairwise.sublist (List.dropWhile_sublist _) hA
    have hdropB : List.Sorted (· ≤ ·) ((b :: bs).dropWhile (· == min a b)) :=
      List.Pairwise.sublist (List.dropWhile_sublist _) hB
    have ihy := ih hdropA hdropB y
    rw [processed, jgc_min, processed_cons, countval_append, countval_entry]
    rw [show ((jointGroupCount ((a :: as).dropWhile (· == min a b))
            ((b :: bs).dropWhile (· == min a b))).filterMap fun e =>
          if keep e.2.1 e.2.2 then some (e.1, f e.2.1 e.2.2) else none) =
        processed f keep ((a :: as).dropWhile (· == min a b))
          ((b :: bs).dropWhile (· == min a b)) from rfl, ihy]
    exact step_glue f keep hk (min a b) y _ _ _ _ _ _
      (fun hy => by rw [hy]; exact count_dropWhile_self (min a b) (a :: as) hA hallA)
      (fun hy => by rw [hy]; exact count_dropWhile_self (min a b) (b :: bs) hB hallB)
      (count_decomp (min a b) y (a :: as)) (count_decomp (min a b) y (b :: bs))

/-- `soft_diff(a, b) = max(0, a - b)`; over `ℕ` this is exactly truncated
subtraction. -/
def soft_diff (a b : ℕ) : ℕ := a - b

/-- `symm_diff(a, b) = abs(a - b)`; over `ℕ` written `max - min`. -/
def symm_diff (a b : ℕ) : ℕ := max a b - min a b

/-- `Multiset.__union_items`: guard `max(counts) > 0` (plain) resp.
`max(counts) > counts[0]` (delta), value `max(counts)` resp.
`max(counts) - counts[0]`. -/
def union_items (A B : List ℕ) (delta : Bool) : List (ℕ × ℕ) :=
  if !delta then
    processed (fun c1 c2 => max c1 c2) (fun c1 c2 => max c1 c2 > 0) A B
  else
    processed (fun c1 c2 => max c1 c2 - c1) (fun c1 c2 => max c1 c2 > c1) A B

/-- `Multiset.__intersection_items`: guard `min(counts) > 0` resp.
`min(counts) < counts[0]`, value `min(counts)` resp. `counts[0] - min(counts)`. -/
def intersection_items (A B : List ℕ) (delta : Bool) : List (ℕ × ℕ) :=
  if !delta then
    processed (fun c1 c2 => min c1 c2) (fun c1 c2 => min c1 c2 > 0) A B
  else
    processed (fun c1 c2 => c1 - min c1 c2) (fun c1 c2 => min c1 c2 < c1) A B

/-- `Multiset.__difference_items` for two operands: `reduce(soft_diff,
(c1, c2)) = soft_diff(c1, c2)`. -/
def difference_items (A B : List ℕ) (delta : Bool) : List (ℕ × ℕ) :=
  if !delta then
    processed (fun c1 c2 => soft_diff c1 c2) (fun c1 c2 => soft_diff c1 c2 > 0) A B
  else
    processed (fun c1 c2 => c1 - soft_diff c1 c2) (fun c1 c2 => soft_diff c1 c2 < c1) A B

/-- `Multiset.__symmetric_difference_items` with `delta=False`: guard
`self_count != other_count`, value `symm_diff(self_count, other_count)`. -/
def symmetric_difference_items (A B : List ℕ) : List (ℕ × ℕ) :=
  processed (fun c1 c2 => symm_diff c1 c2) (fun c1 c2 => c1 ≠ c2) A B

/-- `Multiset.from_multiplicities`: concatenate `repeat(elem, count)` runs.
The resulting backing list is the new multiset's contents. -/
def from_multiplicities (l : List (ℕ × ℕ)) : List ℕ :=
  l.flatMap fun p => List.replicate p.2 p.1

/-- `Multiset.union(other)` (two operands), as its backing element list. -/
def Multiset_union (A B : List ℕ) : List ℕ :=
  from_multiplicities (union_items A B false)

/-- `Multiset.intersection(other)` (two operands). -/
def Multiset_intersection (A B : List ℕ) : List ℕ :=
  from_multiplicities (intersection_items A B false)

/-- `Multiset.difference(other)` (two operands). -/
def Multiset_difference (A B : List ℕ) : List ℕ :=
  from_multiplicities (difference_items A B false)

/-- `Multiset.symmetric_difference(other)`. -/
def Multiset_symmetric_difference (A B : List ℕ) : List ℕ :=
  from_multiplicities (symmetric_difference_items A B)

/-- `Multiset.issubset(other)`: `not any(self.__intersection_items(other,
delta=True))`. -/
def Multiset_issubset (A B : List ℕ) : Bool :=
  (intersection_items A B true).isEmpty

/-- `Multiset.__eq__(other)`: `not any(self.__symmetric_difference_items(
other, delta=False))`. -/
def Multiset_eq (A B : List ℕ) : Bool :=
  (symmetric_difference_items A B).isEmpty

theorem count_from_multiplicities (l : List (ℕ × ℕ)) (y : ℕ) :
    (from_multiplicities l).count y = countval y l := by
  induction l with
  | nil => simp [from_multiplicities, countval]
  | cons p t ih =>
    simp only [from_multiplicities, List.flatMap_cons, List.count_append, countval,
      List.map_cons, List.sum_cons] at ih ⊢
    rw [ih, List.count_replicate]
    by_cases h : p.1 = y
    · simp [h]
    · simp [h]

theorem union_count (A B : List ℕ) (hA : List.Sorted (· ≤ ·) A)
    (hB : List.Sorted (· ≤ ·) B) (y : ℕ) :
    (Multiset_union A B).count y = max (A.count y) (B.count y) := by
  rw [Multiset_union, count_from_multiplicities, union_items]
  simp only [Bool.not_false, if_true]
  rw [processed_sum _ _ (by omega) A B hA hB y]
  split
  · rfl
  · omega

theorem intersection_count (A B : List ℕ) (hA : List.Sorted (· ≤ ·) A)
    (hB : List.Sorted (· ≤ ·) B) (y : ℕ) :
    (Multiset_intersection A B).count y = min (A.count y) (B.count y) := by
  rw [Multiset_intersection, count_from_multiplicities, intersection_items]
  simp only [Bool.not_false, if_true]
  rw [processed_sum _ _ (by omega) A B hA hB y]
  split
  · rfl
  · omega

theorem difference_count (A B : List ℕ) (hA : List.Sorted (· ≤ ·) A)
    (hB : List.Sorted (· ≤ ·) B) (y : ℕ) :
    (Multiset_difference A B).count y = A.count y - B.count y := by
  rw [Multiset_difference, count_from_multiplicities, difference_items]
  simp only [Bool.not_false, if_true]
  rw [processed_sum _ _ (by simp [soft_diff]) A B hA hB y]
  simp only [soft_diff]
  split
  · rfl
  · omega

theorem symm_diff_count (A B : List ℕ) (hA : List.Sorted (· ≤ ·) A)
    (hB : List.Sorted (· ≤ ·) B) (y : ℕ) :
    (Multiset_symmetric_difference A B).count y = symm_diff (A.count y) (B.count y) := by
  rw [Multiset_symmetric_difference, count_from_multiplicities, symmetric_difference_items]
  rw [processed_sum _ _ (by simp) A B hA hB y]
  simp only [symm_diff]
  split
  · rfl
  · omega

theorem processed_isEmpty_iff (f : ℕ → ℕ → ℕ) (keep : ℕ → ℕ → Prop)
    [∀ c1 c2, Decidable (keep c1 c2)] (hk : ¬ keep 0 0)
    (hf : ∀ c1 c2, keep c1 c2 → 0 < f c1 c2) (A B : List ℕ)
    (hA : List.Sorted (· ≤ ·) A) (hB : List.Sorted (· ≤ ·) B) :
    (processed f keep A B).isEmpty = true ↔ ∀ y, ¬ keep (A.count y) (B.count y) := by
  rw [List.isEmpty_iff]
  constructor
  · intro hemp y hkeep
    have hs := processed_sum f keep hk A B hA hB y
    rw [hemp, if_pos hkeep] at hs
    simp only [countval, List.map_nil, List.sum_nil] at hs
    exact absurd hs.symm (Nat.pos_iff_ne_zero.mp (hf _ _ hkeep))
  · intro hall
    by_contra hne
    obtain ⟨p, hp⟩ := List.exists_mem_of_ne_nil _ hne
    have hp' := hp
    rw [processed, List.mem_filterMap] at hp'
    obtain ⟨e, _, heq⟩ := hp'
    by_cases hke : keep e.2.1 e.2.2
    · rw [if_pos hke] at heq
      have hpe : p = (e.1, f e.2.1 e.2.2) := (Option.some.inj heq).symm
      have hp2 : 0 < p.2 := by
        rw [hpe]
        exact hf _ _ hke
      have hmm : p.2 ∈ (processed f keep A B).map (fun q => if q.1 = p.1 then q.2 else 0) := by
        refine List.mem_map.mpr ⟨p, hp, ?_⟩
        rw [if_pos rfl]
      have hle : p.2 ≤ countval p.1 (processed f keep A B) :=
        List.single_le_sum (fun x _ => Nat.zero_le x) _ hmm
      rw [processed_sum f keep hk A B hA hB p.1, if_neg (hall p.1)] at hle
      omega
    · rw [if_neg hke] at heq
      exact absurd heq (by simp)

theorem issubset_iff_counts (A B : List ℕ) (hA : List.Sorted (· ≤ ·) A)
    (hB : List.Sorted (· ≤ ·) B) :
    Multiset_issubset A B = true ↔ ∀ y, A.count y ≤ B.count y := by
  have hdef : intersection_items A B true =
      processed (fun c1 c2 => c1 - min c1 c2) (fun c1 c2 => min c1 c2 < c1) A B := rfl
  rw [Multiset_issubset, hdef,
    processed_isEmpty_iff _ _ (by omega) (fun c1 c2 h => by omega) A B hA hB]
  constructor
  · intro h y
    have := h y
    omega
  · intro h y
    have := h y
    omega

theorem eq_iff_counts (A B : List ℕ) (hA : List.Sorted (· ≤ ·) A)
    (hB : List.Sorted (· ≤ ·) B) :
    Multiset_eq A B = true ↔ ∀ y, A.count y = B.count y := by
  rw [Multiset_eq, symmetric_difference_items,
    processed_isEmpty_iff _ _ (by simp) (fun c1 c2 h => by simp [symm_diff]; omega) A B hA hB]
  constructor
  · intro h y
    have := h y
    omega
  · intro h y
    have := h y
    omega

theorem mem_from_multiplicities {b : ℕ} {l : List (ℕ × ℕ)}
    (h : b ∈ from_multiplicities l) : ∃ p ∈ l, b = p.1 := by
  rw [from_multiplicities, List.mem_flatMap] at h
  obtain ⟨p, hp, hrep⟩ := h
  exact ⟨p, hp, (List.mem_replicate.mp hrep).2⟩

theorem jgc_elems_lb : ∀ (A B : List ℕ) (c : ℕ), (∀ z ∈ A, c < z) → (∀ z ∈ B, c < z) →
    ∀ e ∈ jointGroupCount A B, c < e.1 := by
  intro A B
  induction A, B using jointGroupCount.induct with
  | case1 =>
    intro c _ _ e he
    rw [jgc_nil] at he
    simp at he
  | case2 a as ih =>
    intro c hA hB e he
    rw [jgc_left] at he
    rcases List.mem_cons.mp he with rfl | he2
    · exact hA a (List.mem_cons_self a as)
    · exact ih c (fun z hz => hA z ((List.dropWhile_sublist _).subset hz))
        (by intro z hz; simp at hz) e he2
  | case3 b bs ih =>
    intro c hA hB e he
    rw [jgc_right] at he
    rcases List.mem_cons.mp he with rfl | he2
    · exact hB b (List.mem_cons_self b bs)
    · exact ih c (by intro z hz; simp at hz)
        (fun z hz => hB z ((List.dropWhile_sublist _).subset hz)) e he2
  | case4 a as b bs ih =>
    intro c hA hB e he
    rw [jgc_min] at he
    rcases List.mem_cons.mp he with rfl | he2
    · have h1 := hA a (List.mem_cons_self a as)
      have h2 := hB b (List.mem_cons_self b bs)
      show c < min a b
      omega
    · exact ih c (fun z hz => hA z ((List.dropWhile_sublist _).subset hz))
        (fun z hz => hB z ((List.dropWhile_sublist _).subset hz)) e he2

theorem jgc_map_pairwise : ∀ (A B : List ℕ), List.Sorted (· ≤ ·) A →
    List.Sorted (· ≤ ·) B →
    List.Pairwise (· < ·) ((jointGroupCount A B).map (fun e => e.1)) := by
  intro A B
  induction A, B using jointGroupCount.induct with
  | case1 =>
    intro _ _
    rw [jgc_nil]
    simp
  | case2 a as ih =>
    intro hA hB
    have hall : ∀ z ∈ a :: as, a ≤ z := by
      intro z hz
      rcases List.mem_cons.mp hz with rfl | hz2
      · exact le_refl _
      · exact List.rel_of_sorted_cons hA z hz2
    have hdropS : List.Sorted (· ≤ ·) ((a :: as).dropWhile (· == a)) :=
      List.Pairwise.sublist (List.dropWhile_sublist _) hA
    rw [jgc_left, List.map_cons, List.pairwise_cons]
    refine ⟨?_, ih hdropS List.sorted_nil⟩
    intro y hy
    obtain ⟨e, he, rfl⟩ := List.mem_map.mp hy
    exact jgc_elems_lb _ _ a (sorted_dropWhile_lt a _ hA hall)
      (by intro z hz; simp at hz) e he
  | case3 b bs ih =>
    intro hA hB
    have hall : ∀ z ∈ b :: bs, b ≤ z := by
      intro z hz
      rcases List.mem_cons.mp hz with rfl | hz2
      · exact le_refl _
      · exact List.rel_of_sorted_cons hB z hz2
    have hdropS : List.Sorted (· ≤ ·) ((b :: bs).dropWhile (· == b)) :=
      List.Pairwise.sublist (List.dropWhile_sublist _) hB
    rw [jgc_right, List.map_cons, List.pairwise_cons]
    refine ⟨?_, ih List.sorted_nil hdropS⟩
    intro y hy
    obtain ⟨e, he, rfl⟩ := List.mem_map.mp hy
    exact jgc_elems_lb _ _ b (by intro z hz; simp at hz)
      (sorted_dropWhile_lt b _ hB hall) e he
  | case4 a as b bs ih =>
    intro hA hB
    have hallA : ∀ z ∈ a :: as, min a b ≤ z := by
      intro z hz
      rcases List.mem_cons.mp hz with rfl | hz2
      · exact Nat.min_le_left _ _
      · exact le_trans (Nat.min_le_left a b) (List.rel_of_sorted_cons hA z hz2)
    have hallB : ∀ z ∈ b :: bs, min a b ≤ z := by
      intro z hz
      rcases List.mem_cons.mp hz with rfl | hz2
      · exact Nat.min_le_right _ _
      · exact le_trans (Nat.min_le_right a b) (List.rel_of_sorted_cons hB z hz2)
    have hdropA : List.Sorted (· ≤ ·) ((a :: as).dropWhile (· == min a b)) :=
      List.Pairwise.sublist (List.dropWhile_sublist _) hA
    have hdropB : List.Sorted (· ≤ ·) ((b :: bs).dropWhile (· == min a b)) :=
      List.Pairwise.sublist (List.dropWhile_sublist _) hB
    rw [jgc_min, List.map_cons, List.pairwise_cons]
    refine ⟨?_, ih hdropA hdropB⟩
    intro y hy
    obtain ⟨e, he, rfl⟩ := List.mem_map.mp hy
    exact jgc_elems_lb _ _ (min a b) (sorted_dropWhile_lt (min a b) _ hA hallA)
      (sorted_dropWhile_lt (min a b) _ hB hallB) e he

theorem filterMap_fst_sublist (g : ℕ × ℕ × ℕ → Option (ℕ × ℕ))
    (hg : ∀ e p, g e = some p → p.1 = e.1) :
    ∀ l : List (ℕ × ℕ × ℕ),
      ((l.filterMap g).map (fun p => p.1)).Sublist (l.map (fun e => e.1)) := by
  intro l
  induction l with
  | nil => simp
  | cons e t ih =>
    rw [List.filterMap_cons]
    cases hge : g e with
    | none =>
      rw [List.map_cons]
      exact ih.cons _
    | some p =>
      rw [List.map_cons, List.map_cons, hg e p hge]
      exact ih.cons₂ _

theorem pairwise_replicate_le (n x : ℕ) :
    List.Pairwise (· ≤ ·) (List.replicate n x) := by
  induction n with
  | zero => simp
  | succ m ih =>
    rw [List.replicate_succ, List.pairwise_cons]
    refine ⟨?_, ih⟩
    intro y hy
    rw [List.eq_of_mem_replicate hy]

theorem sorted_from_multiplicities : ∀ l : List (ℕ × ℕ),
    List.Pairwise (· < ·) (l.map (fun p => p.1)) →
    List.Sorted (· ≤ ·) (from_multiplicities l) := by
  intro l
  induction l with
  | nil =>
    intro _
    simp [from_multiplicities]
  | cons p t ih =>
    intro hp
    rw [List.map_cons, List.pairwise_cons] at hp
    show List.Sorted (· ≤ ·) (List.replicate p.2 p.1 ++ from_multiplicities t)
    rw [List.Sorted, List.pairwise_append]
    refine ⟨pairwise_replicate_le _ _, ih hp.2, ?_⟩
    intro x hx y hy
    obtain ⟨q, hq, rfl⟩ := mem_from_multiplicities hy
    rw [List.eq_of_mem_replicate hx]
    exact le_of_lt (hp.1 q.1 (List.mem_map.mpr ⟨q, hq, rfl⟩))

theorem union_sorted (A B : List ℕ) (hA : List.Sorted (· ≤ ·) A)
    (hB : List.Sorted (· ≤ ·) B) : List.Sorted (· ≤ ·) (Multiset_union A B) := by
  apply sorted_from_multiplicities
  have hdef : union_items A B false =
      ((jointGroupCount A B).filterMap fun e =>
        if max e.2.1 e.2.2 > 0 then some (e.1, max e.2.1 e.2.2) else none) := rfl
  rw [hdef]
  refine List.Pairwise.sublist (filterMap_fst_sublist _ ?_ _) (jgc_map_pairwise A B hA hB)
  intro e p hp
  by_cases h : max e.2.1 e.2.2 > 0
  · rw [if_pos h] at hp
    rw [← Option.some.inj hp]
  · rw [if_neg h] at hp
    exact absurd hp (by simp)

/-- **C4** (confirmed).  For all (sorted-backing) multisets `A`, `B` over
numeric elements and every element `x`: union multiplicity is `max`,
intersection is `min`, difference is `max(0, c1 - c2)`, and
`A.issubset(B)` holds iff `A.union(B) == B` (with `==` the multiset equality
`Multiset.__eq__`). -/
theorem claim_C4_multiset_algebra :
    ∀ A B : List ℕ, List.Sorted (· ≤ ·) A → List.Sorted (· ≤ ·) B →
      (∀ x : ℕ,
        (Multiset_union A B).count x = max (A.count x) (B.count x) ∧
        (Multiset_intersection A B).count x = min (A.count x) (B.count x) ∧
        ((Multiset_difference A B).count x : ℤ) =
          max 0 ((A.count x : ℤ) - (B.count x : ℤ))) ∧
      (Multiset_issubset A B = true ↔ Multiset_eq (Multiset_union A B) B = true) := by
  intro A B hA hB
  refine ⟨fun x => ⟨union_count A B hA hB x, intersection_count A B hA hB x, ?_⟩, ?_⟩
  · rw [difference_count A B hA hB x]
    omega
  · rw [issubset_iff_counts A B hA hB,
      eq_iff_counts (Multiset_union A B) B (union_sorted A B hA hB) hB]
    constructor
    · intro h y
      rw [union_count A B hA hB y]
      have := h y
      omega
    · intro h y
      have := h y
      rw [union_count A B hA hB y] at this
      omega

/-- Witness for C4 at `A = Multiset([1,1,2])`, `B = Multiset([1,2,2])`,
`x = 1`. -/
theorem claim_C4_multiset_algebra_witness :
    (List.Sorted (· ≤ ·) [1, 1, 2] ∧ List.Sorted (· ≤ ·) [1, 2, 2]) ∧
    ((Multiset_union [1, 1, 2] [1, 2, 2]).count 1 =
        max (List.count 1 [1, 1, 2]) (List.count 1 [1, 2, 2]) ∧
      (Multiset_intersection [1, 1, 2] [1, 2, 2]).count 1 =
        min (List.count 1 [1, 1, 2]) (List.count 1 [1, 2, 2]) ∧
      ((Multiset_difference [1, 1, 2] [1, 2, 2]).count 1 : ℤ) =
        max 0 ((List.count 1 [1, 1, 2] : ℤ) - (List.count 1 [1, 2, 2] : ℤ))) ∧
    (Multiset_issubset [1, 1, 2] [1, 2, 2] = true ↔
      Multiset_eq (Multiset_union [1, 1, 2] [1, 2, 2]) [1, 2, 2] = true) :=
  ⟨⟨by decide, by decide⟩,
    (claim_C4_multiset_algebra [1, 1, 2] [1, 2, 2] (by decide) (by decide)).1 1,
    (claim_C4_multiset_algebra [1, 1, 2] [1, 2, 2] (by decide) (by decide)).2⟩

/-- `Multiset.__add_quantity(elem, count)`: extend by `count` copies; the
backing `SortedList` keeps the list sorted, modelled by repeated ordered
insertion. -/
def add_quantity (l : List ℕ) (e c : ℕ) : List ℕ :=
  (List.replicate c e).foldl (fun acc x => List.orderedInsert (· ≤ ·) x acc) l

/-- `Multiset.__remove_quantity(elem, count)`: remove `count` copies.
(`SortedList.remove` raises `KeyError` when the element is absent; that case
is unreachable in the calls modelled here, and `List.erase` is a no-op on an
absent element.) -/
def remove_quantity (l : List ℕ) (e c : ℕ) : List ℕ :=
  (List.replicate c e).foldl (fun acc x => acc.erase x) l

/-- `Multiset.__include_quantity(elem, count)`: signed delta application. -/
def include_quantity (l : List ℕ) (e : ℕ) (c : ℤ) : List ℕ :=
  if c < 0 then remove_quantity l e c.natAbs else add_quantity l e c.toNat

/-- `Multiset.__symmetric_difference_items` with `delta=True`:

```python
return ((elem, symm_diff(self_count, other_count) - counts[0])
        for elem, (self_count, other_count) in it if other_count > 0)
```

The yield expression references `counts`, a name bound in **no** enclosing
scope (the generator unpacks `elem, (self_count, other_count)`; `counts` was
the tuple name used by the sibling `__*_items` methods).  Consuming the
generator therefore raises `NameError` at the first item passing the
`other_count > 0` filter, and yields nothing (an empty delta list) when no
item passes it.  That is exactly the behaviour modelled here. -/
def symmetric_difference_items_delta (A B : List ℕ) : Except String (List (ℕ × ℤ)) :=
  if (jointGroupCount A B).any (fun e => decide (0 < e.2.2)) then
    .error "NameError: name counts is not defined"
  else
    .ok []

/-- `Multiset.update(other)`: apply the union deltas via `__add_quantity`. -/
def Multiset_update (A B : List ℕ) : List ℕ :=
  (union_items A B true).foldl (fun acc p => add_quantity acc p.1 p.2) A

/-- `Multiset.intersection_update(other)`: apply the intersection deltas via
`__remove_quantity`. -/
def Multiset_intersection_update (A B : List ℕ) : List ℕ :=
  (intersection_items A B true).foldl (fun acc p => remove_quantity acc p.1 p.2) A

/-- `Multiset.difference_update(other)`: apply the difference deltas via
`__remove_quantity`. -/
def Multiset_difference_update (A B : List ℕ) : List ℕ :=
  (difference_items A B true).foldl (fun acc p => remove_quantity acc p.1 p.2) A

/-- `Multiset.symmetric_difference_update(other)`: collect the delta list
(`list(...)` forces the generator, surfacing the `NameError`), then apply via
`__include_quantity`. -/
def Multiset_symmetric_difference_update (A B : List ℕ) : Except String (List ℕ) :=
  (symmetric_difference_items_delta A B).map fun deltas =>
    deltas.foldl (fun acc p => include_quantity acc p.1 p.2) A

/-- **C5** (code bug).  The claim: all four in-place variants terminate
normally and agree with the corresponding pure operation.  In fact
`symmetric_difference_update` raises `NameError` (undefined name `counts` in
the delta generator of `__symmetric_difference_items`) whenever the other
operand has any element with positive multiplicity — here
`Multiset([1]).symmetric_difference_update(Multiset([1]))` — while the pure
`symmetric_difference` of the same operands succeeds and returns the empty
multiset. -/
theorem claim_C5_symm_diff_update_raises :
    Multiset_symmetric_difference_update [1] [1] =
        .error "NameError: name counts is not defined" ∧
      Multiset_symmetric_difference [1] [1] = [] := by
  have h : jointGroupCount [1] [1] = [(1, 1, 1)] := by
    rw [jgc_min]
    norm_num
    rw [jgc_nil]
  constructor
  · rw [Multiset_symmetric_difference_update, symmetric_difference_items_delta, h]
    rfl
  · rw [Multiset_symmetric_difference, symmetric_difference_items, processed, h]
    rfl

/-! ## The universal key over heterogeneous Python values (claims C8, C10)

`Multiset.py` stores elements in a `SortedList` keyed by
`hashable_universal_key`, which tags numbers with `0`, tuples with `1`
(recursively keyed) and everything else with `2` plus the object's hash, and
relies on Python tuple comparison of these key values.  `joint_groupby`'s
merge, however, compares the **raw** buffered values (its `_choice` uses
`min` with key `lambda val: (0, val)`), which raises `TypeError` on
cross-category operands. -/

/-- Universe of Python values for the heterogeneous-element claims.  `num`
covers instances of `numbers.Real` (modelled by their numeric value — the
width of the numeric tower is irrelevant to the ordering claims); `tup`
covers tuples; `opq` covers all other hashable objects, identified with their
stable hash `h` (the spec's "implementation-defined but stable
discriminator"). -/
inductive PyVal : Type where
  | num (z : ℤ)
  | tup (l : List PyVal)
  | opq (h : ℤ)

/-- Image type of `hashable_universal_key`: the Python key is the tagged
tuple `(0, obj)`, `(1, tuple(map(key, obj)))` or `(2, hash(obj))`; the tag is
encoded by the constructor (in declaration order `num < tup < opq`). -/
inductive UKey : Type where
  | num (z : ℤ)
  | tup (l : List UKey)
  | opq (h : ℤ)

/-- `hashable_universal_key(obj)` from `Multiset.py`. -/
def univKey : PyVal → UKey
  | .num z => .num z
  | .opq h => .opq h
  | .tup l => .tup (l.attach.map fun x => univKey x.1)
termination_by x => sizeOf x
decreasing_by
  have := List.sizeOf_lt_of_mem x.2
  simp_wf
  omega

theorem univKey_num (z : ℤ) : univKey (.num z) = .num z := by rw [univKey]

theorem univKey_opq (h : ℤ) : univKey (.opq h) = .opq h := by rw [univKey]

theorem univKey_tup (l : List PyVal) : univKey (.tup l) = .tup (l.map univKey) := by
  rw [univKey]
  congr 1
  induction l with
  | nil => simp
  | cons x xs ih => simp [ih]

/-- Three-way comparison of Python numbers (exact values). -/
def zcmp (a b : ℤ) : Ordering := if a < b then .lt else if b < a then .gt else .eq

theorem zcmp_eq_iff {a b : ℤ} : zcmp a b = .eq ↔ a = b := by
  unfold zcmp
  split
  · constructor
    · intro h
      cases h
    · omega
  · split
    · constructor
      · intro h
        cases h
      · omega
    · constructor
      · intro _
        omega
      · intro _
        rfl

theorem zcmp_swap (a b : ℤ) : (zcmp a b).swap = zcmp b a := by
  unfold zcmp
  rcases lt_trichotomy a b with h | h | h
  · simp only [if_pos h, if_neg (lt_asymm h)]
    rfl
  · subst h
    rw [if_neg (lt_irrefl a), if_neg (lt_irrefl a)]
    rfl
  · simp only [if_pos h, if_neg (lt_asymm h)]
    rfl

theorem zcmp_lt_trans {a b c : ℤ} (h1 : zcmp a b = .lt) (h2 : zcmp b c = .lt) :
    zcmp a c = .lt := by
  unfold zcmp at h1 h2 ⊢
  split at h1
  · split at h2
    · rw [if_pos (by omega)]
    · split at h2 <;> cases h2
  · split at h1 <;> cases h1

/-- Python's tuple comparison applied to universal-key values: the category
tags compare first (`(0,…) < (1,…) < (2,…)`); equal tags compare payloads —
numerically for numbers, lexicographically (recursively, shorter prefix
first) for tuples, by the hash discriminator for opaque values. -/
def ukcmp : UKey → UKey → Ordering
  | .num a, .num b => zcmp a b
  | .num _, .tup _ => .lt
  | .num _, .opq _ => .lt
  | .tup _, .num _ => .gt
  | .tup [], .tup [] => .eq
  | .tup [], .tup (_ :: _) => .lt
  | .tup (_ :: _), .tup [] => .gt
  | .tup (x :: xs), .tup (y :: ys) => (ukcmp x y).then (ukcmp (.tup xs) (.tup ys))
  | .tup _, .opq _ => .lt
  | .opq _, .num _ => .gt
  | .opq _, .tup _ => .gt
  | .opq a, .opq b => zcmp a b
termination_by x y => sizeOf x + sizeOf y
decreasing_by all_goals simp_arith

theorem ukcmp_refl : (x : UKey) → ukcmp x x = .eq
  | .num a => by simp [ukcmp, zcmp_eq_iff]
  | .tup [] => by simp [ukcmp]
  | .tup (x :: xs) => by
    have h1 := ukcmp_refl x
    have h2 := ukcmp_refl (.tup xs)
    simp [ukcmp, h1, h2, Ordering.then]
  | .opq h => by simp [ukcmp, zcmp_eq_iff]
termination_by x => sizeOf x
decreasing_by all_goals simp_arith

theorem ukcmp_eq : (x y : UKey) → ukcmp x y = .eq → x = y
  | .num a, .num b => by
    intro h
    simp only [ukcmp] at h
    rw [zcmp_eq_iff.mp h]
  | .num _, .tup _ => by
    intro h
    simp [ukcmp] at h
  | .num _, .opq _ => by
    intro h
    simp [ukcmp] at h
  | .tup _, .num _ => by
    intro h
    simp [ukcmp] at h
  | .tup [], .tup [] => by
    intro _
    rfl
  | .tup [], .tup (_ :: _) => by
    intro h
    simp [ukcmp] at h
  | .tup (_ :: _), .tup [] => by
    intro h
    simp [ukcmp] at h
  | .tup (x :: xs), .tup (y :: ys) => by
    intro h
    simp only [ukcmp, Ordering.then_eq_eq] at h
    have e1 : x = y := ukcmp_eq x y h.1
    have e2 : UKey.tup xs = UKey.tup ys := ukcmp_eq (.tup xs) (.tup ys) h.2
    cases e1
    cases e2
    rfl
  | .tup _, .opq _ => by
    intro h
    simp [ukcmp] at h
  | .opq _, .num _ => by
    intro h
    simp [ukcmp] at h
  | .opq _, .tup _ => by
    intro h
    simp [ukcmp] at h
  | .opq a, .opq b => by
    intro h
    simp only [ukcmp] at h
    rw [zcmp_eq_iff.mp h]
termination_by x y => sizeOf x + sizeOf y
decreasing_by all_goals simp_arith

theorem ukcmp_swap : (x y : UKey) → (ukcmp x y).swap = ukcmp y x
  | .num a, .num b => by simp only [ukcmp, zcmp_swap]
  | .num _, .tup _ => by simp [ukcmp, Ordering.swap]
  | .num _, .opq _ => by simp [ukcmp, Ordering.swap]
  | .tup _, .num _ => by simp [ukcmp, Ordering.swap]
  | .tup [], .tup [] => by simp [ukcmp, Ordering.swap]
  | .tup [], .tup (_ :: _) => by simp [ukcmp, Ordering.swap]
  | .tup (_ :: _), .tup [] => by simp [ukcmp, Ordering.swap]
  | .tup (x :: xs), .tup (y :: ys) => by
    have h1 := ukcmp_swap x y
    have h2 := ukcmp_swap (.tup xs) (.tup ys)
    simp only [ukcmp, Ordering.swap_then, h1, h2]
  | .tup _, .opq _ => by simp [ukcmp, Ordering.swap]
  | .opq _, .num _ => by simp [ukcmp, Ordering.swap]
  | .opq _, .tup _ => by simp [ukcmp, Ordering.swap]
  | .opq a, .opq b => by simp only [ukcmp, zcmp_swap]
termination_by x y => sizeOf x + sizeOf y
decreasing_by all_goals simp_arith

theorem ukcmp_lt_trans : (x y z : UKey) → ukcmp x y = .lt → ukcmp y z = .lt →
    ukcmp x z = .lt
  | .num a, .num b, .num c => by
    intro h1 h2
    simp only [ukcmp] at h1 h2 ⊢
    exact zcmp_lt_trans h1 h2
  | .num _, .num _, .tup _ => by intro _ _; simp [ukcmp]
  | .num _, .num _, .opq _ => by intro _ _; simp [ukcmp]
  | .num _, .tup _, .tup _ => by intro _ _; simp [ukcmp]
  | .num _, .tup _, .opq _ => by intro _ _; simp [ukcmp]
  | .num _, .opq _, .opq _ => by intro _ _; simp [ukcmp]
  | .num _, .tup _, .num _ => by intro _ h2; simp [ukcmp] at h2
  | .num _, .opq _, .num _ => by intro _ h2; simp [ukcmp] at h2
  | .num _, .opq _, .tup _ => by intro _ h2; simp [ukcmp] at h2
  | .tup _, .num _, _ => by intro h1 _; simp [ukcmp] at h1
  | .tup _, .tup _, .num _ => by intro _ h2; simp [ukcmp] at h2
  | .tup _, .tup _, .opq _ => by intro _ _; simp [ukcmp]
  | .tup _, .opq _, .num _ => by intro _ h2; simp [ukcmp] at h2
  | .tup _, .opq _, .tup _ => by intro _ h2; simp [ukcmp] at h2
  | .tup _, .opq _, .opq _ => by intro _ _; simp [ukcmp]
  | .opq _, .num _, _ => by intro h1 _; simp [ukcmp] at h1
  | .opq _, .tup _, _ => by intro h1 _; simp [ukcmp] at h1
  | .opq _, .opq _, .num _ => by intro _ h2; simp [ukcmp] at h2
  | .opq _, .opq _, .tup _ => by intro _ h2; simp [ukcmp] at h2
  | .opq a, .opq b, .opq c => by
    intro h1 h2
    simp only [ukcmp] at h1 h2 ⊢
    exact zcmp_lt_trans h1 h2
  | .tup [], .tup [], .tup _ => by intro h1 _; simp [ukcmp] at h1
  | .tup [], .tup (_ :: _), .tup [] => by intro _ h2; simp [ukcmp] at h2
  | .tup [], .tup (_ :: _), .tup (_ :: _) => by intro _ _; simp [ukcmp]
  | .tup (_ :: _), .tup [], .tup _ => by intro h1 _; simp [ukcmp] at h1
  | .tup (_ :: _), .tup (_ :: _), .tup [] => by intro _ h2; simp [ukcmp] at h2
  | .tup (x :: xs), .tup (y :: ys), .tup (z :: zs) => by
    intro h1 h2
    simp only [ukcmp, Ordering.then_eq_lt] at h1 h2 ⊢
    rcases h1 with h1 | ⟨h1e, h1t⟩
    · rcases h2 with h2 | ⟨h2e, h2t⟩
      · exact Or.inl (ukcmp_lt_trans x y z h1 h2)
      · have hyz := ukcmp_eq y z h2e
        subst hyz
        exact Or.inl h1
    · have hxy := ukcmp_eq x y h1e
      subst hxy
      rcases h2 with h2 | ⟨h2e, h2t⟩
      · exact Or.inl h2
      · have hyz := ukcmp_eq x z h2e
        subst hyz
        refine Or.inr ⟨ukcmp_refl x, ?_⟩
        have ht := ukcmp_lt_trans (.tup xs) (.tup ys) (.tup zs) h1t h2t
        exact ht
termination_by x y z => sizeOf x + sizeOf y + sizeOf z
decreasing_by all_goals simp_arith

theorem univKey_inj : (x y : PyVal) → univKey x = univKey y → x = y
  | .num a, .num b => by
    intro h
    rw [univKey_num, univKey_num] at h
    cases h
    rfl
  | .num _, .tup _ => by
    intro h
    rw [univKey_num, univKey_tup] at h
    cases h
  | .num _, .opq _ => by
    intro h
    rw [univKey_num, univKey_opq] at h
    cases h
  | .tup _, .num _ => by
    intro h
    rw [univKey_tup, univKey_num] at h
    cases h
  | .tup [], .tup [] => by
    intro _
    rfl
  | .tup [], .tup (_ :: _) => by
    intro h
    rw [univKey_tup, univKey_tup] at h
    simp at h
  | .tup (_ :: _), .tup [] => by
    intro h
    rw [univKey_tup, univKey_tup] at h
    simp at h
  | .tup (x :: xs), .tup (y :: ys) => by
    intro h
    rw [univKey_tup, univKey_tup] at h
    simp only [List.map_cons, UKey.tup.injEq, List.cons.injEq] at h
    have e1 : x = y := univKey_inj x y h.1
    have e2 : PyVal.tup xs = PyVal.tup ys := by
      apply univKey_inj (.tup xs) (.tup ys)
      rw [univKey_tup, univKey_tup]
      rw [h.2]
    cases e1
    cases e2
    rfl
  | .tup _, .opq _ => by
    intro h
    rw [univKey_tup, univKey_opq] at h
    cases h
  | .opq _, .num _ => by
    intro h
    rw [univKey_opq, univKey_num] at h
    cases h
  | .opq _, .tup _ => by
    intro h
    rw [univKey_opq, univKey_tup] at h
    cases h
  | .opq a, .opq b => by
    intro h
    rw [univKey_opq, univKey_opq] at h
    cases h
    rfl
termination_by x y => sizeOf x + sizeOf y
decreasing_by all_goals simp_arith

/-- The order in which the backing `SortedList(key=hashable_universal_key)`
stores elements: `x` weakly precedes `y` iff `key(x) ≤ key(y)`. -/
def pvLe (x y : PyVal) : Prop := ukcmp (univKey x) (univKey y) ≠ .gt

instance pvLe_decidable : DecidableRel pvLe := fun x y => by
  unfold pvLe
  infer_instance

theorem ukcmp_not_gt_iff {x y : UKey} :
    ukcmp x y ≠ .gt ↔ ukcmp x y = .lt ∨ ukcmp x y = .eq := by
  cases h : ukcmp x y <;> simp

instance pvLe_total : IsTotal PyVal pvLe := by
  constructor
  intro x y
  by_cases h : ukcmp (univKey x) (univKey y) = .gt
  · right
    intro hcon
    rw [← ukcmp_swap (univKey x) (univKey y), h] at hcon
    cases hcon
  · left
    exact h

instance pvLe_trans : IsTrans PyVal pvLe := by
  constructor
  intro x y z h1 h2
  rcases ukcmp_not_gt_iff.mp h1 with ha | ha
  · rcases ukcmp_not_gt_iff.mp h2 with hb | hb
    · apply ukcmp_not_gt_iff.mpr
      exact Or.inl (ukcmp_lt_trans _ _ _ ha hb)
    · have := ukcmp_eq _ _ hb
      unfold pvLe
      rw [← this]
      exact h1
  · have := ukcmp_eq _ _ ha
    unfold pvLe
    rw [this]
    exact h2

instance pvLe_antisymm : IsAntisymm PyVal pvLe := by
  constructor
  intro x y h1 h2
  rcases ukcmp_not_gt_iff.mp h1 with ha | ha
  · exfalso
    apply h2
    rw [← ukcmp_swap (univKey x) (univKey y), ha]
    rfl
  · exact univKey_inj x y (ukcmp_eq _ _ ha)

/-- Construction of a `Multiset`'s backing list from an iterable:
`Multiset.__init__` → `extend` → `SortedList.update` inserts each element
while maintaining the key order (modelled by repeated ordered insertion). -/
def msOfList (l : List PyVal) : List PyVal :=
  l.foldl (fun acc x => List.orderedInsert pvLe x acc) []

theorem msOfList_sorted_aux : ∀ (l acc : List PyVal), List.Sorted pvLe acc →
    List.Sorted pvLe (l.foldl (fun acc x => List.orderedInsert pvLe x acc) acc)
  | [], acc, h => h
  | x :: t, acc, h =>
    msOfList_sorted_aux t _ (List.Sorted.orderedInsert x acc h)

theorem msOfList_perm_aux : ∀ (l acc : List PyVal),
    (l.foldl (fun acc x => List.orderedInsert pvLe x acc) acc).Perm (acc ++ l)
  | [], acc => by simp
  | x :: t, acc => by
    have h1 := msOfList_perm_aux t (List.orderedInsert pvLe x acc)
    have h2 : (List.orderedInsert pvLe x acc ++ t).Perm (acc ++ x :: t) := by
      have h3 : (List.orderedInsert pvLe x acc ++ t).Perm ((x :: acc) ++ t) :=
        (List.perm_orderedInsert pvLe x acc).append_right t
      have h4 : ((x :: acc) ++ t : List PyVal) = x :: (acc ++ t) := rfl
      rw [h4] at h3
      exact h3.trans List.perm_middle.symm
    simp only [List.foldl_cons]
    exact h1.trans h2

/-- **C10** (confirmed).  Building a multiset from any iterable yields a
backing list sorted by the universal key (the invariant every operation
re-establishes, since every operation funnels its result through this
construction), and two multisets built from the same contents — inputs that
are permutations of one another — have identical backing lists, so they
iterate identically regardless of insertion order.  (In this model distinct
opaque objects carry distinct discriminators; elements with equal universal
key are equal.) -/
theorem claim_C10_canonical_iteration :
    (∀ l : List PyVal, List.Sorted pvLe (msOfList l)) ∧
    (∀ l1 l2 : List PyVal, l1.Perm l2 → msOfList l1 = msOfList l2) := by
  constructor
  · intro l
    exact msOfList_sorted_aux l [] List.sorted_nil
  · intro l1 l2 hperm
    have hp1 : (msOfList l1).Perm l1 := by simpa using msOfList_perm_aux l1 []
    have hp2 : (msOfList l2).Perm l2 := by simpa using msOfList_perm_aux l2 []
    exact List.eq_of_perm_of_sorted ((hp1.trans hperm).trans hp2.symm)
      (msOfList_sorted_aux l1 [] List.sorted_nil)
      (msOfList_sorted_aux l2 [] List.sorted_nil)

/-- Witness for C10: inserting a number and a tuple in either order yields
the same backing list. -/
theorem claim_C10_witness :
    ([PyVal.num 2, PyVal.tup [PyVal.num 1]] : List PyVal).Perm
        [PyVal.tup [PyVal.num 1], PyVal.num 2] ∧
      msOfList [PyVal.num 2, PyVal.tup [PyVal.num 1]] =
        msOfList [PyVal.tup [PyVal.num 1], PyVal.num 2] :=
  ⟨List.Perm.swap _ _ _,
    claim_C10_canonical_iteration.2 _ _ (List.Perm.swap _ _ _)⟩

/-- Python `==` on modelled values (cross-category comparison is `False`,
never an error). -/
def pyEq : PyVal → PyVal → Bool
  | .num a, .num b => a == b
  | .opq a, .opq b => a == b
  | .tup [], .tup [] => true
  | .tup (x :: xs), .tup (y :: ys) => pyEq x y && pyEq (.tup xs) (.tup ys)
  | _, _ => false
termination_by x y => sizeOf x + sizeOf y
decreasing_by all_goals simp_arith

theorem pyEq_refl : (x : PyVal) → pyEq x x = true
  | .num a => by simp [pyEq]
  | .opq a => by simp [pyEq]
  | .tup [] => by simp [pyEq]
  | .tup (x :: xs) => by
    have h1 := pyEq_refl x
    have h2 := pyEq_refl (.tup xs)
    simp [pyEq, h1, h2]
termination_by x => sizeOf x
decreasing_by all_goals simp_arith

/-- Python `<` on modelled values: numbers compare numerically, tuples
lexicographically (recursively; a strict prefix is smaller), and any other
combination — a number against a tuple, or opaque operands, which model
hashable objects without an order — raises `TypeError`. -/
def pyLt : PyVal → PyVal → Except String Bool
  | .num a, .num b => .ok (decide (a < b))
  | .tup [], .tup [] => .ok false
  | .tup [], .tup (_ :: _) => .ok true
  | .tup (_ :: _), .tup [] => .ok false
  | .tup (x :: xs), .tup (y :: ys) =>
    if pyEq x y then pyLt (.tup xs) (.tup ys) else pyLt x y
  | _, _ => .error "TypeError: '<' not supported between instances"
termination_by x y => sizeOf x + sizeOf y
decreasing_by all_goals simp_arith

/-- `min` over the two buffered heads in `joint_groupby`'s `_choice` (with
the default `ordered=True`): the key `lambda val: (0, val)` makes the tuple
comparison fall through to the **raw** values, so `min([x, y])` evaluates
`y < x` and keeps `x` on ties — including the raw comparison's `TypeError`. -/
def pyMin2 (x y : PyVal) : Except String PyVal :=
  (pyLt y x).map fun b => if b then y else x

theorem pyMin2_ok {a b x : PyVal} (h : pyMin2 a b = .ok x) : x = b ∨ x = a := by
  unfold pyMin2 at h
  cases hlt : pyLt b a with
  | error e =>
    rw [hlt] at h
    cases h
  | ok v =>
    rw [hlt] at h
    simp only [Except.map] at h
    cases v
    · right
      cases h
      rfl
    · left
      cases h
      rfl

/-- `joint_group_count` over two `Multiset` operands of arbitrary modelled
Python values: the same sorted-runs walk as `jointGroupCount`, except that
choosing the least buffered head uses Python's raw comparison and can
therefore raise `TypeError`.  Grouping itself compares with `==` (`pyEq`),
which cannot fail. -/
def pyJointGroupCount : List PyVal → List PyVal → Except String (List (PyVal × ℕ × ℕ))
  | [], [] => .ok []
  | a :: as, [] =>
    (pyJointGroupCount ((a :: as).dropWhile (fun z => pyEq z a)) []).map
      fun rest => (a, ((a :: as).takeWhile (fun z => pyEq z a)).length, 0) :: rest
  | [], b :: bs =>
    (pyJointGroupCount [] ((b :: bs).dropWhile (fun z => pyEq z b))).map
      fun rest => (b, 0, ((b :: bs).takeWhile (fun z => pyEq z b)).length) :: rest
  | a :: as, b :: bs =>
    match h : pyMin2 a b with
    | .error e => .error e
    | .ok x =>
      (pyJointGroupCount ((a :: as).dropWhile (fun z => pyEq z x))
          ((b :: bs).dropWhile (fun z => pyEq z x))).map
        fun rest => (x, ((a :: as).takeWhile (fun z => pyEq z x)).length,
          ((b :: bs).takeWhile (fun z => pyEq z x)).length) :: rest
termination_by A B => A.length + B.length
decreasing_by
  · have hd : ((a :: as).dropWhile (fun z => pyEq z a)).length ≤ as.length := by
      rw [List.dropWhile_cons, if_pos (pyEq_refl a)]
      exact (List.dropWhile_sublist _).length_le
    simp only [List.length_cons]
    omega
  · have hd : ((b :: bs).dropWhile (fun z => pyEq z b)).length ≤ bs.length := by
      rw [List.dropWhile_cons, if_pos (pyEq_refl b)]
      exact (List.dropWhile_sublist _).length_le
    simp only [List.length_cons]
    omega
  · rcases pyMin2_ok h with hxb | hxa
    · rw [hxb]
      have hdB : ((b :: bs).dropWhile (fun z => pyEq z b)).length ≤ bs.length := by
        rw [List.dropWhile_cons, if_pos (pyEq_refl b)]
        exact (List.dropWhile_sublist _).length_le
      have hdA : ((a :: as).dropWhile (fun z => pyEq z b)).length ≤ (a :: as).length :=
        (List.dropWhile_sublist _).length_le
      simp only [List.length_cons] at hdA ⊢
      omega
    · rw [hxa]
      have hdA : ((a :: as).dropWhile (fun z => pyEq z a)).length ≤ as.length := by
        rw [List.dropWhile_cons, if_pos (pyEq_refl a)]
        exact (List.dropWhile_sublist _).length_le
      have hdB : ((b :: bs).dropWhile (fun z => pyEq z a)).length ≤ (b :: bs).length :=
        (List.dropWhile_sublist _).length_le
      simp only [List.length_cons] at hdB ⊢
      omega

/-- `Multiset.from_multiplicities` over modelled Python values. -/
def py_from_multiplicities (l : List (PyVal × ℕ)) : List PyVal :=
  l.flatMap fun p => List.replicate p.2 p.1

/-- `Multiset.union(other)` over two multisets of arbitrary modelled Python
values (backing lists), with the guard and value of `__union_items`. -/
def py_union (A B : List PyVal) : Except String (List PyVal) :=
  (pyJointGroupCount A B).map fun items =>
    py_from_multiplicities (items.filterMap fun e =>
      if max e.2.1 e.2.2 > 0 then some (e.1, max e.2.1 e.2.2) else none)

/-- **C8** (code bug).  The claim: the set-algebra operations succeed on
heterogeneous operands with no caller-supplied comparison.  In fact
`Multiset.union` (like the other operations) walks `joint_group_count` with
the default `ordered=True`, whose `_choice` takes `min` keyed by
`(0, val)` — comparing the **raw** buffered values.  For
`Multiset([1]).union(Multiset([(2,)]))` this evaluates `(2,) < 1` and raises
`TypeError`, violating the docstring of `joint_groupby` itself, which demands
`ordered=False` for non-comparable values. -/
theorem claim_C8_union_heterogeneous_raises :
    py_union [PyVal.num 1] [PyVal.tup [PyVal.num 2]] =
      .error "TypeError: '<' not supported between instances" := by
  have h1 : pyLt (PyVal.tup [PyVal.num 2]) (PyVal.num 1) =
      .error "TypeError: '<' not supported between instances" := by
    simp [pyLt]
  have h2 : pyMin2 (PyVal.num 1) (PyVal.tup [PyVal.num 2]) =
      .error "TypeError: '<' not supported between instances" := by
    unfold pyMin2
    rw [h1]
    rfl
  have h3 : pyJointGroupCount [PyVal.num 1] [PyVal.tup [PyVal.num 2]] =
      .error "TypeError: '<' not supported between instances" := by
    simp only [pyJointGroupCount]
    split
    next e heq =>
      rw [h2] at heq
      cases heq
      rfl
    next x heq =>
      rw [h2] at heq
      cases heq
  rw [py_union, h3]
  rfl

end Tesseract
